import Mathlib

/-!
Verification of the image-processor link engine: a shallow embedding of the
link rewrite/extraction engine, path resolver, reachability analysis and
rename coordinator from `src/main.ts` and `src/util.ts`, with theorems about
the behaviours the specification claims.

Strings are modelled as `List Char`.  The JavaScript regular expressions are
implemented as explicit matchers that follow the engine's leftmost, lazy /
greedy and backtracking semantics for the concrete patterns the code uses.
Scanners that restart after a produced match use a fuel argument (always
called with the string length, which is sufficient) so that every function
reduces in the kernel.
-/

namespace ImgProc

/-- Character strings, modelled as lists of characters. -/
abbrev Str := List Char

/-- Embed a Lean string literal as a `Str`. -/
def str (s : String) : Str := s.data

/-- JS `.` in a regex without the `s` flag: any character except a line
terminator (`\n`, `\r`, U+2028, U+2029). -/
def isDotChar (c : Char) : Bool :=
  c ≠ '\n' && c ≠ '\r' && c ≠ ' ' && c ≠ ' '

/-- The two configured link styles (`settings.style`): `obsidian`
(bracket-embed `![[...]]`) and markdown (`![...](...)`). -/
inductive LinkStyle where
  | obsidian
  | markdown
deriving DecidableEq, Repr

/-- `downloadedPaths`: the rewrite map from raw target (URL) to new local
path, looked up with `Map.get` (first binding wins, keys unique in the
program). -/
abbrev RewriteMap := List (Str × Str)

/-! ## Rewrite engine (`replaceImageUrls`, main.ts 348-373)

Pass 1 regex: `\[!\[(.*?)\]\((http[^)]+)\)\]\([^)]+\)`    (link-wrapped)
Pass 2 regex: `!\[(.*?)\]\((http[^)]+)\)`                  (simple)

`matchTailSimple s` matches `\]\((http[^)]+)\)` at the start of `s`,
returning the captured URL and the remainder.  The `[^)]+` is greedy and
admits no useful backtracking (shrinking it puts a non-`)` character under
the final `\)`), so it is the maximal run of non-`)` characters. -/
def matchTailSimple : Str → Option (Str × Str)
  | ']' :: '(' :: 'h' :: 't' :: 't' :: 'p' :: s2 =>
    let run := s2.takeWhile (· ≠ ')')
    if run = [] then none
    else
      match s2.dropWhile (· ≠ ')') with
      | ')' :: r => some ('h' :: 't' :: 't' :: 'p' :: run, r)
      | _ => none
  | _ => none

/-- Lazy `(.*?)` before `matchTailSimple`: at each prefix length (shortest
first) try the rest of the pattern; `.` only matches `isDotChar`
characters.  Returns `(alt, url, rest)`. -/
def findAltSimple : Str → Option (Str × Str × Str)
  | [] => none
  | c :: s' =>
    match matchTailSimple (c :: s') with
    | some (u, r) => some ([], u, r)
    | none =>
      if isDotChar c then
        (findAltSimple s').map (fun (a, u, r) => (c :: a, u, r))
      else none

/-- `matchTailWrapped s` matches `\]\((http[^)]+)\)\]\(([^)]+)\)` at the
start of `s`, returning `(url, outerTarget, rest)`. -/
def matchTailWrapped : Str → Option (Str × Str × Str)
  | ']' :: '(' :: 'h' :: 't' :: 't' :: 'p' :: s2 =>
    let run := s2.takeWhile (· ≠ ')')
    if run = [] then none
    else
      match s2.dropWhile (· ≠ ')') with
      | ')' :: ']' :: '(' :: s4 =>
        let run2 := s4.takeWhile (· ≠ ')')
        if run2 = [] then none
        else
          match s4.dropWhile (· ≠ ')') with
          | ')' :: r => some ('h' :: 't' :: 't' :: 'p' :: run, run2, r)
          | _ => none
      | _ => none
  | _ => none

/-- Lazy alt before `matchTailWrapped`.  Returns `(alt, url, outer, rest)`. -/
def findAltWrapped : Str → Option (Str × Str × Str × Str)
  | [] => none
  | c :: s' =>
    match matchTailWrapped (c :: s') with
    | some (u, o, r) => some ([], u, o, r)
    | none =>
      if isDotChar c then
        (findAltWrapped s').map (fun (a, u, o, r) => (c :: a, u, o, r))
      else none

/-- The replacement string built by both passes of `replaceImageUrls`
(main.ts 355-358 / 367-370): wiki/obsidian style renders `![[path|alt]]`
(or `![[path]]` when the alt is empty, since `alt ? ... : ...` treats the
empty string as falsy); markdown style renders `![alt](path)`. -/
def renderImageLink (style : LinkStyle) (path alt : Str) : Str :=
  match style with
  | .obsidian =>
    if alt = [] then str "![[" ++ path ++ str "]]"
    else str "![[" ++ path ++ str "|" ++ alt ++ str "]]"
  | .markdown => str "![" ++ alt ++ str "](" ++ path ++ str ")"

/-- A simple-pattern match starting exactly at the head of `s`:
`s` must begin with `![`, then the lazy alt search takes over.
Returns `(alt, url, rest)`. -/
def simpleMatchAt : Str → Option (Str × Str × Str)
  | '!' :: '[' :: rest2 => findAltSimple rest2
  | _ => none

/-- A link-wrapped-pattern match starting exactly at the head of `s`:
`s` must begin with `[![`. Returns `(alt, url, outer, rest)`. -/
def wrappedMatchAt : Str → Option (Str × Str × Str × Str)
  | '[' :: '!' :: '[' :: rest2 => findAltWrapped rest2
  | _ => none

/-- One global-replace pass of the simple pattern
(`content.replace(/!\[(.*?)\]\((http[^)]+)\)/g, ...)`): find leftmost
matches, replace a match whose URL is in the map, emit a match whose URL
misses the map unchanged, and in both cases continue scanning after the
match.  Fueled; `fuel = s.length` suffices. -/
def replSimpleGo (M : RewriteMap) (style : LinkStyle) : Nat → Str → Str
  | 0, s => s
  | _ + 1, [] => []
  | fuel + 1, c :: rest =>
    match simpleMatchAt (c :: rest) with
    | some (alt, url, r) =>
      (match M.lookup url with
       | some p => renderImageLink style p alt
       | none => '!' :: '[' :: alt ++ ']' :: '(' :: url ++ [')']) ++
      replSimpleGo M style fuel r
    | none => c :: replSimpleGo M style fuel rest

/-- One global-replace pass of the link-wrapped pattern
(`content.replace(/\[!\[(.*?)\]\((http[^)]+)\)\]\([^)]+\)/g, ...)`). -/
def replWrappedGo (M : RewriteMap) (style : LinkStyle) : Nat → Str → Str
  | 0, s => s
  | _ + 1, [] => []
  | fuel + 1, c :: rest =>
    match wrappedMatchAt (c :: rest) with
    | some (alt, url, outer, r) =>
      (match M.lookup url with
       | some p => renderImageLink style p alt
       | none =>
         '[' :: '!' :: '[' :: alt ++ ']' :: '(' :: url ++ ')' :: ']' ::
           '(' :: outer ++ [')']) ++
      replWrappedGo M style fuel r
    | none => c :: replWrappedGo M style fuel rest

/-- Pass 2 of `replaceImageUrls` run on a whole string. -/
def replaceSimplePass (M : RewriteMap) (style : LinkStyle) (s : Str) : Str :=
  replSimpleGo M style s.length s

/-- Pass 1 of `replaceImageUrls` run on a whole string. -/
def replaceWrappedPass (M : RewriteMap) (style : LinkStyle) (s : Str) : Str :=
  replWrappedGo M style s.length s

/-- `replaceImageUrls(content, downloadedPaths)` (main.ts 348-373): the
link-wrapped pattern is substituted first over the whole content, then the
simple pattern runs on the resulting text. -/
def replaceImageUrls (M : RewriteMap) (style : LinkStyle) (content : Str) : Str :=
  replaceSimplePass M style (replaceWrappedPass M style content)

/-! ### Structural lemmas about the matchers -/
/-- The literal characters `http`. -/
def httpChars : Str := ['h', 't', 't', 'p']

/-- The link-wrapped composite text `[![a](u1)](u2)` with `u1 = "http" ++ t1`. -/
def wrappedComposite (a t1 u2 : Str) : Str :=
  '[' :: '!' :: '[' :: (a ++ ']' :: '(' :: 'h' :: 't' :: 't' :: 'p' ::
    (t1 ++ ')' :: ']' :: '(' :: (u2 ++ [')'])))

/-! ## URL extraction (`extractImageUrls`, main.ts 375-395, and the
identical `extractNetworkImageUrls`, main.ts 1333-1353)

Pass 1 regex: `\[!\[.*?\]\((http.*?)\)\]\([^)]+\)`  — every match's URL is
pushed, with no duplicate check.
Pass 2 regex: `!\[.*?\]\((http.*?)\)` — a URL is pushed only if not already
in the list (`urls.includes`).

Unlike the rewrite regexes, the URL groups here are lazy `(http.*?)`, so
the URL extends minimally until the rest of the pattern matches. -/
/-- Lazy `(.*?)\)`: the shortest dot-run followed by `)`. -/
def lazyToParen : Str → Option (Str × Str)
  | [] => none
  | ')' :: r => some ([], r)
  | c :: s' =>
    if isDotChar c then (lazyToParen s').map (fun (x, r) => (c :: x, r)) else none

/-- `\)\]\(([^)]+)\)` at the start of `s` (the closer of the wrapped
extraction pattern); returns the rest after the final `)`. -/
def tryCloseWrap : Str → Option Str
  | ')' :: ']' :: '(' :: s3 =>
    let run := s3.takeWhile (· ≠ ')')
    if run = [] then none
    else
      match s3.dropWhile (· ≠ ')') with
      | ')' :: r => some r
      | _ => none
  | _ => none

/-- Lazy `(.*?)` before `tryCloseWrap`. -/
def lazyWrapUrl : Str → Option (Str × Str)
  | [] => none
  | c :: s' =>
    match tryCloseWrap (c :: s') with
    | some r => some ([], r)
    | none =>
      if isDotChar c then (lazyWrapUrl s').map (fun (x, r) => (c :: x, r)) else none

/-- `\]\((http.*?)\)` at the start of `s`. -/
def matchTailXSimple : Str → Option (Str × Str)
  | ']' :: '(' :: 'h' :: 't' :: 't' :: 'p' :: s2 =>
    (lazyToParen s2).map (fun (x, r) => ('h' :: 't' :: 't' :: 'p' :: x, r))
  | _ => none

/-- `\]\((http.*?)\)\]\([^)]+\)` at the start of `s`. -/
def matchTailXWrapped : Str → Option (Str × Str)
  | ']' :: '(' :: 'h' :: 't' :: 't' :: 'p' :: s2 =>
    (lazyWrapUrl s2).map (fun (x, r) => ('h' :: 't' :: 't' :: 'p' :: x, r))
  | _ => none

/-- Lazy `.*?` alt before `matchTailXSimple` (the alt is not captured by
the extractor, so only the URL and the rest are returned). -/
def findAltXSimple : Str → Option (Str × Str)
  | [] => none
  | c :: s' =>
    match matchTailXSimple (c :: s') with
    | some ur => some ur
    | none => if isDotChar c then findAltXSimple s' else none

/-- Lazy `.*?` alt before `matchTailXWrapped`. -/
def findAltXWrapped : Str → Option (Str × Str)
  | [] => none
  | c :: s' =>
    match matchTailXWrapped (c :: s') with
    | some ur => some ur
    | none => if isDotChar c then findAltXWrapped s' else none

/-- An extraction-pattern simple match starting at the head of `s`. -/
def xSimpleAt : Str → Option (Str × Str)
  | '!' :: '[' :: rest2 => findAltXSimple rest2
  | _ => none

/-- An extraction-pattern wrapped match starting at the head of `s`. -/
def xWrappedAt : Str → Option (Str × Str)
  | '[' :: '!' :: '[' :: rest2 => findAltXWrapped rest2
  | _ => none

/-- The link-wrapped extraction loop: `urls.push(match[1])` for every
match, with no duplicate check. -/
def extractWrappedGo : Nat → Str → List Str
  | 0, _ => []
  | _ + 1, [] => []
  | fuel + 1, c :: rest =>
    match xWrappedAt (c :: rest) with
    | some (u, r) => u :: extractWrappedGo fuel r
    | none => extractWrappedGo fuel rest

/-- The simple extraction loop: a URL is appended only when not already in
the accumulated list (`if (!urls.includes(match[1]))`). -/
def extractSimpleGo : Nat → List Str → Str → List Str
  | 0, acc, _ => acc
  | _ + 1, acc, [] => acc
  | fuel + 1, acc, c :: rest =>
    match xSimpleAt (c :: rest) with
    | some (u, r) => extractSimpleGo fuel (if u ∈ acc then acc else acc ++ [u]) r
    | none => extractSimpleGo fuel acc rest

/-- `extractImageUrls(content)` (main.ts 375-395): all link-wrapped URLs in
match order first, then the simple-pattern URLs not already collected. -/
def extractImageUrls (content : Str) : List Str :=
  extractSimpleGo content.length (extractWrappedGo content.length content) content

/-! ## Path resolver (`resolveImagePath` / `resolveRelativePath`,
main.ts 1400-1485) -/
/-- JS `String.split(sep)` for a one-character separator: `"".split` gives
`[""]`, and separators at the ends give empty segments. -/
def splitOnChar (sep : Char) : Str → List Str
  | [] => [[]]
  | c :: r =>
    if c = sep then [] :: splitOnChar sep r
    else
      match splitOnChar sep r with
      | h :: t => (c :: h) :: t
      | [] => [[c]]

/-- `resolveRelativePath(basePath, relativePath)` (main.ts 1467-1485):
split both on `/`, drop empty segments, then `..` pops and `.` is skipped
(`pop` on an empty stack is a no-op, as in JS). -/
def resolveRelativePath (basePath relativePath : Str) : Str :=
  let baseParts := if basePath = [] then [] else (splitOnChar '/' basePath).filter (· ≠ [])
  let relativeParts := (splitOnChar '/' relativePath).filter (· ≠ [])
  let resolvedParts := relativeParts.foldl
    (fun acc part =>
      if part = str ".." then acc.dropLast
      else if part = str "." then acc
      else acc ++ [part])
    baseParts
  List.intercalate ['/'] resolvedParts

/-- `TFile.name`: the final path component. -/
def baseName (p : Str) : Str := ((splitOnChar '/' p).getLast?).getD []

/-- `getAbstractFileByPath` + `instanceof TFile`: the store is modelled as
the list of its file paths. -/
def lookupVault (vault : List Str) (p : Str) : Option Str :=
  if p ∈ vault then some p else none

/-- First-success chaining of the resolver's rules. -/
def firstSome (a b : Option Str) : Option Str :=
  match a with
  | some x => some x
  | none => b

/-- The relative-path rule: only tried when the target contains `../` or
starts with `./`. -/
def tryRelativeRule (vault : List Str) (currentDir imagePath : Str) : Option Str :=
  if (str "../" <:+: imagePath) ∨ (str "./" <+: imagePath) then
    lookupVault vault (resolveRelativePath currentDir imagePath)
  else none

/-- Look for the bare filename inside one directory (skipped when the
directory string is empty, since JS `if (dir)` is false on `""`). -/
def tryDirRule (vault : List Str) (dir imagePath : Str) : Option Str :=
  if dir ≠ [] then lookupVault vault (dir ++ '/' :: imagePath) else none

/-- The full-store scan: `allFiles.find(f => f.name === imagePath)`. -/
def tryScanRule (vault : List Str) (imagePath : Str) : Option Str :=
  vault.find? (fun q => decide (baseName q = imagePath))

/-- `resolveImagePath(imagePath, activeFile)` (main.ts 1400-1462):
`attachmentDir` is the configured default attachment directory and
`currentDir` is `activeFile.parent?.path || ""`.  Remote targets short out
to `none`; then verbatim lookup, the relative rule, and — for a bare
filename — attachment directory, document directory, full-store scan.
The function is total: the source's `try/catch` can only return `null`. -/
def resolveImagePath (vault : List Str) (attachmentDir currentDir imagePath : Str) :
    Option Str :=
  if str "http" <+: imagePath then none
  else
    firstSome (lookupVault vault imagePath)
      (firstSome (tryRelativeRule vault currentDir imagePath)
        (if '/' ∉ imagePath then
          firstSome (tryDirRule vault attachmentDir imagePath)
            (firstSome (tryDirRule vault currentDir imagePath)
              (tryScanRule vault imagePath))
         else none))

/-! ## Unused-attachment query (`util.ts` 12-67) -/
/-- A store file: its path and its extension (as Obsidian reports them). -/
structure TFile where
  path : Str
  extension : Str
deriving DecidableEq, Repr

/-- `imageExtensions` (util.ts 9). -/
def imageExtensions : List Str :=
  [str "jpeg", str "jpg", str "png", str "gif", str "svg", str "bmp", str "webp", str "avif"]

/-- The document extensions skipped by the enumeration (util.ts 54). -/
def docExtensions : List Str := [str "md", str "canvas", str "base"]

/-- JS `String.trim()`. -/
def trimStr (s : Str) : Str :=
  ((s.dropWhile Char.isWhitespace).reverse.dropWhile Char.isWhitespace).reverse

def toLowerStr (s : Str) : Str := s.map Char.toLower

/-- `plugin?.settings?.excludedExtensions?.split(',').map(e => e.trim()
.toLowerCase()) ?? []` (util.ts 44-47): `none` models an absent plugin or
setting. -/
def excludedExtArr (excludedExtensions : Option Str) : List Str :=
  match excludedExtensions with
  | some s => (splitOnChar ',' s).map (fun e => toLowerStr (trimStr e))
  | none => []

/-- The `'image' | 'all'` kind argument. -/
inductive AttachKind where
  | image
  | all
deriving DecidableEq, Repr

/-- `getAttachmentsInVault(app, type, plugin)` (util.ts 36-67): walk the
store's files in order; skip excluded and document extensions (compared
lowercased); keep image extensions always, and any remaining extension
only for kind `all`. -/
def getAttachmentsInVault (allFiles : List TFile) (excl : Option Str)
    (kind : AttachKind) : List TFile :=
  match allFiles with
  | [] => []
  | f :: rest =>
    let fileExt := toLowerStr f.extension
    if fileExt ∈ excludedExtArr excl ∨ fileExt ∈ docExtensions then
      getAttachmentsInVault rest excl kind
    else if fileExt ∈ imageExtensions then
      f :: getAttachmentsInVault rest excl kind
    else if kind = .all then
      f :: getAttachmentsInVault rest excl kind
    else
      getAttachmentsInVault rest excl kind

/-- The loop of `getUnusedAttachments` (util.ts 25-29): keep an attachment
iff its path is not in the used set. -/
def unusedFilter (usedSet : List Str) : List TFile → List TFile
  | [] => []
  | f :: rest =>
    if f.path ∈ usedSet then unusedFilter usedSet rest
    else f :: unusedFilter usedSet rest

/-- `getUnusedAttachments(app, type, plugin)` (util.ts 12-32), with the
awaited reachability set passed explicitly. -/
def getUnusedAttachments (allFiles : List TFile) (excl : Option Str)
    (kind : AttachKind) (usedSet : List Str) : List TFile :=
  unusedFilter usedSet (getAttachmentsInVault allFiles excl kind)

/-! ## Reachability set (`getAttachmentPathSetForVault`, util.ts 70-149) -/
/-- Lazy `(.*?)` of `bannerRegex` up to the closing `]]`: at each point the
closer is tried first, then one dot character is consumed. -/
def bannerCaptureFrom : Str → Option Str
  | ']' :: ']' :: _ => some []
  | c :: s' =>
    if isDotChar c then (bannerCaptureFrom s').map (c :: ·) else none
  | [] => none

/-- First match of `bannerRegex = /!\[\[(.*?)\]\]/i` over the value,
returning the capture group (util.ts 8, 97-98).  A failed lazy search at
one `![[` resumes the scan one character later, which lands on the
following `[`, never on another `!`, so scanning may continue at the tail. -/
def bannerCapture : Str → Option Str
  | '!' :: '[' :: '[' :: rest =>
    (match bannerCaptureFrom rest with
     | some cap => some cap
     | none => bannerCapture rest)
  | _ :: rest => bannerCapture rest
  | [] => none

/-- `pathIsAnImage` (util.ts 151-153): `/.*(jpe?g|png|gif|svg|bmp|webp|avif)/i`
has no anchors, so it tests whether one of the keywords occurs anywhere,
case-insensitively. -/
def pathIsAnImage (v : Str) : Bool :=
  [str "jpeg", str "jpg", str "png", str "gif", str "svg", str "bmp",
    str "webp", str "avif"].any (fun k => decide (k <:+: toLowerStr v))

/-- What one front-matter string value contributes to the reachability set
(util.ts 93-109): a bracket-embed match is resolved through the store's
link-shorthand resolver (`getFirstLinkpathDest`) and contributes the
resolved path only; otherwise a value that looks like a bare image path
contributes itself; otherwise nothing. -/
def processFrontmatterValue (resolveShorthand : Str → Option Str) (v : Str) : List Str :=
  match bannerCapture v with
  | some cap =>
    match resolveShorthand cap with
    | some fpath => [fpath]
    | none => []
  | none => if pathIsAnImage v then [v] else []

/-- A node of the canvas JSON tree (util.ts 133-144): a direct file
reference, freeform text, or any other node type. -/
inductive CanvasNode where
  | file (f : Str)
  | text (t : Str)
  | other
deriving Repr

/-- Parsed canvas JSON: the `nodes` field, when it is an array. -/
structure CanvasData where
  nodes : Option (List CanvasNode)

/-- The external collaborators of `getAttachmentPathSetForVault`:
`getFirstLinkpathDest` (link-shorthand resolution against a source path),
`getAllLinkMatchesInFile`'s link texts (from `linkDetector`, not part of
this repository's sources; `none` means the whole-file form, `some t` the
canvas-text form), and `JSON.parse` of canvas content (`none` models a
parse failure). -/
structure VaultOracles where
  resolveShorthand : Str → Str → Option Str
  linkMatches : Str → Option Str → List Str
  parseCanvas : Str → Option CanvasData

/-- A store document as the reachability pass sees it. -/
structure VaultFile where
  path : Str
  extension : Str
  content : Str
  frontmatter : Option (List Str)

/-- `addToSet` (util.ts 231-235). -/
def addToSet (s : List Str) (v : Str) : List Str :=
  if v ∈ s then s else s ++ [v]

def addAll (s : List Str) (vs : List Str) : List Str := vs.foldl addToSet s

/-- Processing one canvas node (util.ts 134-144). -/
def processCanvasNode (O : VaultOracles) (fpath : Str) (s : List Str) :
    CanvasNode → List Str
  | .file f => addToSet s f
  | .text t => addAll s (O.linkMatches fpath (some t))
  | .other => s

/-- Processing one store file (util.ts 84-147): markdown files contribute
their front-matter values and their link matches (both only when a
front-matter block exists, because `if (!fileCache?.frontmatter) continue`);
canvas files are read, parsed, and walked — empty content or malformed
JSON skips the whole file. -/
def processVaultFile (O : VaultOracles) (s : List Str) (f : VaultFile) : List Str :=
  if f.extension = str "md" then
    match f.frontmatter with
    | none => s
    | some vals =>
      let s1 := vals.foldl
        (fun acc v =>
          addAll acc (processFrontmatterValue (fun cap => O.resolveShorthand cap f.path) v))
        s
      addAll s1 (O.linkMatches f.path none)
  else if f.extension = str "canvas" then
    if f.content = [] then s
    else
      match O.parseCanvas f.content with
      | none => s
      | some data =>
        match data.nodes with
        | none => s
        | some nodes => nodes.foldl (fun acc n => processCanvasNode O f.path acc n) s
  else s

/-- Seeding from `app.metadataCache.resolvedLinks` (util.ts 72-81): every
resolved target that does not end in `.md`. -/
def seedResolvedLinks (resolvedLinks : List (Str × List Str)) : List Str :=
  resolvedLinks.foldl
    (fun acc kv =>
      kv.2.foldl (fun a t => if str ".md" <:+ t then a else addToSet a t) acc)
    []

/-- `getAttachmentPathSetForVault(app)` (util.ts 70-149). -/
def getAttachmentPathSetForVault (O : VaultOracles) (resolvedLinks : List (Str × List Str))
    (files : List VaultFile) : List Str :=
  files.foldl (processVaultFile O) (seedResolvedLinks resolvedLinks)

/-! ## Batch processing traces (`processFileWithReferer`, main.ts 170-264,
and `processNetworkImages`, main.ts 1058-1140)

Each download-and-convert of one URL is abstracted by an oracle
`outcome : Str → Option Str` (the final stored path on success, `none` on
failure — the `catch` branch).  The observable events of a batch are the
per-URL item completions and each terminal set-content/modify of the
document text. -/
/-- An observable batch event: item `i` finished (successfully or not), or
the document text was set (`editor.setValue` / `vault.modify`). -/
inductive BatchEvt where
  | item (idx : Nat) (ok : Bool)
  | setContent
deriving DecidableEq, Repr

/-- The loop of `processFileWithReferer` (main.ts 179-246): every URL is
awaited in order; the rewrite map gains an entry per success; no document
write happens inside the loop. -/
def processRefererLoop (outcome : Str → Option Str) :
    Nat → List Str → List BatchEvt × List (Str × Str)
  | _, [] => ([], [])
  | i, u :: rest =>
    let (evts, m) := processRefererLoop outcome (i + 1) rest
    match outcome u with
    | some p => (BatchEvt.item i true :: evts, (u, p) :: m)
    | none => (BatchEvt.item i false :: evts, m)

/-- `processFileWithReferer` (main.ts 170-264): the loop, then exactly one
`replaceImageUrls` + set-content of the document. -/
def processFileWithRefererTrace (outcome : Str → Option Str) (urls : List Str) :
    List BatchEvt :=
  (processRefererLoop outcome 0 urls).1 ++ [BatchEvt.setContent]

/-- The loop of `processNetworkImages` (main.ts 1062-1115): on each
*successful* download the cumulative map is applied and the document is
set (`if (processedMap.size > 0) { ... setValue/modify ... }` inside the
loop body, main.ts 1101-1109). -/
def processNetworkImagesTrace (outcome : Str → Option Str) :
    Nat → List (Str × Str) → List Str → List BatchEvt
  | _, _, [] => []
  | i, m, u :: rest =>
    match outcome u with
    | some p =>
      let m' := m ++ [(u, p)]
      BatchEvt.item i true ::
        (if m' = [] then [] else [BatchEvt.setContent]) ++
          processNetworkImagesTrace outcome (i + 1) m' rest
    | none => BatchEvt.item i false :: processNetworkImagesTrace outcome (i + 1) m rest

/-! ## Rename coordinator (`handleImageRenameAfterFileRename`,
main.ts 2071-2256, with `extractAllImageLinks` 1867-1888,
`extractImagePathFromLink` 1892-1920 and `updateImageLinksInContent`
1925-1968) -/
/-- The image-extension alternation, in the regex's order. -/
def imageExtAlt : List Str :=
  [str "png", str "jpg", str "jpeg", str "gif", str "bmp", str "svg", str "webp"]

/-- Case-insensitive literal match of a lowercase pattern at the head of
the text (the regexes carry the `i` flag); returns the rest. -/
def stripCaseless : Str → Str → Option Str
  | [], s => some s
  | _ :: _, [] => none
  | pc :: ps, c :: cs => if c.toLower = pc then stripCaseless ps cs else none

/-- All splits of `run` at a `.`, as (before, after) pairs in ascending
`before` length. -/
def dotSplitsAsc : Str → List (Str × Str)
  | [] => []
  | c :: r =>
    (if c = '.' then [([], r)] else []) ++
      (dotSplitsAsc r).map (fun ab => (c :: ab.1, ab.2))

/-- The splits in the backtracking order of a greedy `[^\]]+` / `[^)]+`
(longest first), keeping only nonempty `before` parts. -/
def dotSplitsDesc (run : Str) : List (Str × Str) :=
  ((dotSplitsAsc run).reverse).filter (fun ab => ab.1 ≠ [])

/-- `(png|jpg|jpeg|gif|bmp|svg|webp)(?:\|[^\]]+)?\]\]` at the head of `s`:
alternation in order; for each extension, the optional `|alt` group is
tried greedily, then the bare `]]`.  Returns the consumed original text
and the rest. -/
def tryExtObs : List Str → Str → Option (Str × Str)
  | [], _ => none
  | e :: es, s =>
    match stripCaseless e s with
    | some s' =>
      let extPart := s.take e.length
      let attempt : Option (Str × Str) :=
        match s' with
        | '|' :: s2 =>
          let run2 := s2.takeWhile (· ≠ ']')
          if run2 = [] then none
          else
            match s2.dropWhile (· ≠ ']') with
            | ']' :: ']' :: r => some (extPart ++ '|' :: run2 ++ [']', ']'], r)
            | _ => none
        | ']' :: ']' :: r => some (extPart ++ [']', ']'], r)
        | _ => none
      match attempt with
      | some x => some x
      | none => tryExtObs es s
    | none => tryExtObs es s

/-- Try the dot splits in backtracking order for the bracket-embed link
pattern. -/
def trySplitsObs : List (Str × Str) → Str → Option (Str × Str × Str)
  | [], _ => none
  | (A, B) :: more, rest0 =>
    match tryExtObs imageExtAlt (B ++ rest0) with
    | some (consumed, r) => some (A, consumed, r)
    | none => trySplitsObs more rest0

/-- A match of `!\[\[[^\]]+\.(ext)(?:\|[^\]]+)?\]\]` (case-insensitive)
starting at the head of `s`; returns the matched substring and the rest. -/
def obsLinkAt : Str → Option (Str × Str)
  | '!' :: '[' :: '[' :: body =>
    let run := body.takeWhile (· ≠ ']')
    let rest0 := body.dropWhile (· ≠ ']')
    match trySplitsObs (dotSplitsDesc run) rest0 with
    | some (A, consumed, r) => some ('!' :: '[' :: '[' :: (A ++ '.' :: consumed), r)
    | none => none
  | _ => none

/-- `(ext)\)` at the head of `s` for the markdown image-link pattern. -/
def tryExtMd : List Str → Str → Option (Str × Str)
  | [], _ => none
  | e :: es, s =>
    match stripCaseless e s with
    | some (')' :: r) => some (s.take e.length ++ [')'], r)
    | _ => tryExtMd es s

def trySplitsMd : List (Str × Str) → Str → Option (Str × Str × Str)
  | [], _ => none
  | (A, B) :: more, rest0 =>
    match tryExtMd imageExtAlt (B ++ rest0) with
    | some (consumed, r) => some (A, consumed, r)
    | none => trySplitsMd more rest0

/-- A match of `!\[[^\]]*\]\([^)]+\.(ext)\)` (case-insensitive) starting
at the head of `s`. -/
def mdLinkAt : Str → Option (Str × Str)
  | '!' :: '[' :: body =>
    let altRun := body.takeWhile (· ≠ ']')
    match body.dropWhile (· ≠ ']') with
    | ']' :: '(' :: body2 =>
      let run := body2.takeWhile (· ≠ ')')
      let rest0 := body2.dropWhile (· ≠ ')')
      match trySplitsMd (dotSplitsDesc run) rest0 with
      | some (A, consumed, r) =>
        some ('!' :: '[' :: altRun ++ ']' :: '(' :: (A ++ '.' :: consumed), r)
      | none => none
    | _ => none
  | _ => none

def scanObsLinks : Nat → Str → List Str
  | 0, _ => []
  | _ + 1, [] => []
  | fuel + 1, c :: rest =>
    match obsLinkAt (c :: rest) with
    | some (mtxt, r) => mtxt :: scanObsLinks fuel r
    | none => scanObsLinks fuel rest

def scanMdLinks : Nat → Str → List Str
  | 0, _ => []
  | _ + 1, [] => []
  | fuel + 1, c :: rest =>
    match mdLinkAt (c :: rest) with
    | some (mtxt, r) => mtxt :: scanMdLinks fuel r
    | none => scanMdLinks fuel rest

/-- `extractAllImageLinks(content)` (main.ts 1867-1888): all bracket-embed
image links, then all markdown image links. -/
def extractAllImageLinks (content : Str) : List Str :=
  scanObsLinks content.length content ++ scanMdLinks content.length content

/-- First match capture of `!\[\[([^\]|]+)(?:\|[^\]]+)?\]\]` at the head
of `s`. -/
def obsPathAt : Str → Option Str
  | '!' :: '[' :: '[' :: body =>
    let cap := body.takeWhile (fun c => decide (c ≠ ']') && decide (c ≠ '|'))
    if cap = [] then none
    else
      match body.drop cap.length with
      | '|' :: s2 =>
        let run2 := s2.takeWhile (· ≠ ']')
        if run2 = [] then none
        else
          match s2.dropWhile (· ≠ ']') with
          | ']' :: ']' :: _ => some cap
          | _ => none
      | ']' :: ']' :: _ => some cap
      | _ => none
  | _ => none

def findObsPath : Str → Option Str
  | [] => none
  | c :: rest =>
    match obsPathAt (c :: rest) with
    | some cap => some cap
    | none => findObsPath rest

/-- First match capture of `!\[[^\]]*\]\(([^)]+)\)` at the head of `s`. -/
def mdPathAt : Str → Option Str
  | '!' :: '[' :: body =>
    match body.dropWhile (· ≠ ']') with
    | ']' :: '(' :: body2 =>
      let cap := body2.takeWhile (· ≠ ')')
      if cap = [] then none
      else
        match body2.dropWhile (· ≠ ')') with
        | ')' :: _ => some cap
        | _ => none
    | _ => none
  | _ => none

def findMdPath : Str → Option Str
  | [] => none
  | c :: rest =>
    match mdPathAt (c :: rest) with
    | some cap => some cap
    | none => findMdPath rest

/-- `path.replace(/%20/g, " ")`. -/
def decodePercent20 : Str → Str
  | '%' :: '2' :: '0' :: r => ' ' :: decodePercent20 r
  | c :: r => c :: decodePercent20 r
  | [] => []

/-- `oldPath.replace(/ /g, "%20")`. -/
def encodePercent20 : Str → Str
  | [] => []
  | ' ' :: r => '%' :: '2' :: '0' :: encodePercent20 r
  | c :: r => c :: encodePercent20 r

/-- `extractImagePathFromLink(link)` (main.ts 1892-1920). -/
def extractImagePathFromLink (link : Str) : Option Str :=
  if trimStr link = [] then none
  else
    match findObsPath link with
    | some cap =>
      let p := trimStr cap
      if p = [] then none else some p
    | none =>
      match findMdPath link with
      | some cap =>
        let p := trimStr (decodePercent20 cap)
        if p = [] then none else some p
      | none => none

/-- `[a-z0-9]`. -/
def isLowerAlnum (c : Char) : Bool :=
  (decide ('a' ≤ c) && decide (c ≤ 'z')) || (decide ('0' ≤ c) && decide (c ≤ '9'))

/-- The capture of `/_([a-z0-9]{5})$/` (main.ts 2157-2158): the last five
characters when they are `[a-z0-9]` and preceded by an underscore. -/
def extractDisamb (stem : Str) : Option Str :=
  match stem.reverse with
  | c1 :: c2 :: c3 :: c4 :: c5 :: '_' :: _ =>
    if isLowerAlnum c1 && isLowerAlnum c2 && isLowerAlnum c3 &&
        isLowerAlnum c4 && isLowerAlnum c5 then
      some [c5, c4, c3, c2, c1]
    else none
  | _ => none

/-- `fileName.lastIndexOf "."` and the two substrings around it
(main.ts 2124-2136); `none` when there is no dot. -/
def lastDotSplit (fileName : Str) : Option (Str × Str) :=
  let revExt := fileName.reverse.takeWhile (· ≠ '.')
  match fileName.reverse.dropWhile (· ≠ '.') with
  | '.' :: revStem => some (revStem.reverse, revExt.reverse)
  | _ => none

/-- The new image filename (main.ts 2201):
`{newFileName}_{randomStr}.{extension}`, where the random string reuses an
existing disambiguator when the stem has one and otherwise is fresh. -/
def deriveImageNewName (newFileName stem ext freshStr : Str) : Str :=
  newFileName ++ '_' :: ((extractDisamb stem).getD freshStr) ++ '.' :: ext

/-- The environment of a rename event: the configured attachment directory,
the renamed document's directory, the rename-enabled setting, the store's
acceptance of a rename, and the fresh-suffix generator. -/
structure RenameCtx where
  attachmentDir : Str
  currentDir : Str
  fileRenameEnabled : Bool
  renameAllowed : Str → Str → Bool
  fresh : Nat → Str

/-- The loop state: the store's file paths, the renames performed so far
(`renamedImages` in insertion order) and the fresh-suffix counter. -/
structure RenameState where
  vault : List Str
  renamed : List (Str × Str)
  counter : Nat

/-- One iteration of the link loop (main.ts 2099-2234), with the source's
guard order: extract the path, take the filename, split at the last dot,
require nonempty parts, require the setting, compute the disambiguator
(before resolution, as in the source), resolve, require the file, then
rename. -/
def renameStep (ctx : RenameCtx) (newFileName : Str) (st : RenameState)
    (link : Str) : RenameState :=
  match extractImagePathFromLink link with
  | none => st
  | some imagePath =>
    let imageFileName := ((splitOnChar '/' imagePath).getLast?).getD []
    if trimStr imageFileName = [] then st
    else
      match lastDotSplit imageFileName with
      | none => st
      | some (stem, ext) =>
        if stem = [] ∨ ext = [] then st
        else if ¬ ctx.fileRenameEnabled then st
        else
          let counter' :=
            if (extractDisamb stem).isSome then st.counter else st.counter + 1
          let newImageFileName :=
            deriveImageNewName newFileName stem ext (ctx.fresh st.counter)
          match resolveImagePath st.vault ctx.attachmentDir ctx.currentDir imagePath with
          | none => ⟨st.vault, st.renamed, counter'⟩
          | some resolved =>
            if resolved ∈ st.vault then
              let parts := splitOnChar '/' resolved
              let newResolvedPath :=
                List.intercalate ['/'] (parts.dropLast ++ [newImageFileName])
              if ctx.renameAllowed resolved newResolvedPath then
                ⟨st.vault.map (fun q => if q = resolved then newResolvedPath else q),
                  st.renamed ++ [(imagePath, newResolvedPath)], counter'⟩
              else ⟨st.vault, st.renamed, counter'⟩
            else ⟨st.vault, st.renamed, counter'⟩

/-- The obsidian-pattern update
`!\[\[{old}(\|[^\]]+)?\]\]` → `![[{new}{altPart}]]` at the head of `s`:
returns the alt part (with its `|`) and the rest. -/
def obsUpdateAt (oldPath : Str) (s : Str) : Option (Str × Str) :=
  match (if (str "![[" ++ oldPath) <+: s then
      some (s.drop (str "![[" ++ oldPath).length) else none) with
  | none => none
  | some s2 =>
    match s2 with
    | '|' :: s3 =>
      let run := s3.takeWhile (· ≠ ']')
      if run = [] then none
      else
        match s3.dropWhile (· ≠ ']') with
        | ']' :: ']' :: r => some ('|' :: run, r)
        | _ => none
    | ']' :: ']' :: r => some ([], r)
    | _ => none

def replObsPatGo (oldPath newPath : Str) : Nat → Str → Str
  | 0, s => s
  | _ + 1, [] => []
  | fuel + 1, c :: rest =>
    match obsUpdateAt oldPath (c :: rest) with
    | some (altPart, r) =>
      str "![[" ++ newPath ++ altPart ++ str "]]" ++ replObsPatGo oldPath newPath fuel r
    | none => c :: replObsPatGo oldPath newPath fuel rest

/-- The markdown-pattern update `!\[([^\]]*)\]\({old}\)` → `![$1]({new})`
at the head of `s`: returns the alt run and the rest. -/
def mdUpdateAt (oldPath : Str) (s : Str) : Option (Str × Str) :=
  match s with
  | '!' :: '[' :: body =>
    let altRun := body.takeWhile (· ≠ ']')
    match body.dropWhile (· ≠ ']') with
    | ']' :: '(' :: body2 =>
      if (oldPath ++ [')']) <+: body2 then
        some (altRun, body2.drop (oldPath ++ [')']).length)
      else none
    | _ => none
  | _ => none

def replMdPatGo (oldPath newPath : Str) : Nat → Str → Str
  | 0, s => s
  | _ + 1, [] => []
  | fuel + 1, c :: rest =>
    match mdUpdateAt oldPath (c :: rest) with
    | some (altRun, r) =>
      str "![" ++ altRun ++ str "](" ++ newPath ++ str ")" ++
        replMdPatGo oldPath newPath fuel r
    | none => c :: replMdPatGo oldPath newPath fuel rest

/-- One map entry's three sequential replaces (main.ts 1931-1965):
obsidian pattern, markdown pattern with `%20`-encoded paths, markdown
pattern with the raw paths. -/
def updateEntry (content : Str) (oldPath newPath : Str) : Str :=
  let c1 := replObsPatGo oldPath newPath content.length content
  let c2 := replMdPatGo (encodePercent20 oldPath) (encodePercent20 newPath) c1.length c1
  replMdPatGo oldPath newPath c2.length c2

/-- `updateImageLinksInContent(content, renamedImages)` (main.ts 1925-1968). -/
def updateImageLinksInContent (content : Str) (renamed : List (Str × Str)) : Str :=
  renamed.foldl (fun acc kv => updateEntry acc kv.1 kv.2) content

/-- `handleImageRenameAfterFileRename` (main.ts 2071-2256): extract the
local (non-`http`) image links, run the rename loop, and rewrite the
document once iff at least one rename succeeded.  Returns the performed
renames and the final document text. -/
def handleImageRenameAfterFileRename (ctx : RenameCtx) (vault : List Str)
    (content : Str) (newFileName : Str) : List (Str × Str) × Str :=
  let imageLinks := (extractAllImageLinks content).filter
    (fun l =>
      match extractImagePathFromLink l with
      | some p => decide (¬ (str "http" <+: p))
      | none => false)
  if imageLinks = [] then ([], content)
  else
    let final := imageLinks.foldl (renameStep ctx newFileName) ⟨vault, [], 0⟩
    if final.renamed = [] then (final.renamed, content)
    else (final.renamed, updateImageLinksInContent content final.renamed)

/-! ## Theorems -/

example :
    replaceImageUrls [(str "http://x.com/a.webp", str "attachments/doc_ab12c.jpg")]
      .markdown (str "![alt](http://x.com/a.webp)") =
      str "![alt](attachments/doc_ab12c.jpg)" := by decide

example :
    replaceImageUrls [(str "http://x.com/a.webp", str "attachments/doc_ab12c.jpg")]
      .obsidian (str "![alt](http://x.com/a.webp)") =
      str "![[attachments/doc_ab12c.jpg|alt]]" := by decide

theorem matchTailSimple_spec {s u r : Str} (h : matchTailSimple s = some (u, r)) :
    s = ']' :: '(' :: u ++ ')' :: r ∧ httpChars <+: u ∧ ')' ∉ u := by
  unfold matchTailSimple at h
  split at h
  case _ s2 =>
    simp only at h
    split at h
    · exact absurd h (by simp)
    · split at h
      case _ r' heq =>
        obtain ⟨hu, hr⟩ : 'h' :: 't' :: 't' :: 'p' :: s2.takeWhile (· ≠ ')') = u ∧ r' = r := by
          simpa using h
        subst hu hr
        have hs2 : s2.takeWhile (· ≠ ')') ++ s2.dropWhile (· ≠ ')') = s2 :=
          List.takeWhile_append_dropWhile _ _
        rw [heq] at hs2
        refine ⟨?_, ⟨s2.takeWhile (· ≠ ')'), rfl⟩, ?_⟩
        · simp only [List.cons_append]
          rw [hs2]
        · intro hmem
          have hrun : (')' : Char) ∈ s2.takeWhile (· ≠ ')') := by simpa using hmem
          have := List.mem_takeWhile_imp hrun
          simp at this
      · exact absurd h (by simp)
  · exact absurd h (by simp)

theorem wrappedDecompAux {A B r' : Str} {s2 s4 : Str}
    (hs2 : A ++ ')' :: ']' :: '(' :: s4 = s2) (hs4 : B ++ ')' :: r' = s4) :
    (']' :: '(' :: 'h' :: 't' :: 't' :: 'p' :: s2 : Str) =
      ']' :: '(' :: ('h' :: 't' :: 't' :: 'p' :: A) ++ ')' :: ']' :: '(' :: B ++ ')' :: r' := by
  subst hs4
  subst hs2
  simp

theorem matchTailWrapped_spec {s u o r : Str} (h : matchTailWrapped s = some (u, o, r)) :
    s = ']' :: '(' :: u ++ ')' :: ']' :: '(' :: o ++ ')' :: r ∧
      httpChars <+: u ∧ ')' ∉ u ∧ ')' ∉ o ∧ o ≠ [] := by
  unfold matchTailWrapped at h
  split at h
  case _ s2 =>
    simp only at h
    split at h
    · exact absurd h (by simp)
    · split at h
      case _ s4 heq1 =>
        split at h
        case _ hrun2 => exact absurd h (by simp)
        case _ hrun2 =>
          split at h
          case _ r' heq2 =>
            obtain ⟨hu, ho, hr⟩ :
                'h' :: 't' :: 't' :: 'p' :: s2.takeWhile (· ≠ ')') = u ∧
                  s4.takeWhile (· ≠ ')') = o ∧ r' = r := by simpa using h
            subst hu ho hr
            have hs2 : s2.takeWhile (· ≠ ')') ++ ')' :: ']' :: '(' :: s4 = s2 := by
              conv_rhs => rw [← List.takeWhile_append_dropWhile (fun x => decide (x ≠ ')')) s2]
              rw [heq1]
            have hs4 : s4.takeWhile (· ≠ ')') ++ ')' :: r' = s4 := by
              conv_rhs => rw [← List.takeWhile_append_dropWhile (fun x => decide (x ≠ ')')) s4]
              rw [heq2]
            refine ⟨?_, ⟨s2.takeWhile (· ≠ ')'), rfl⟩, ?_, ?_, hrun2⟩
            · exact wrappedDecompAux hs2 hs4
            · intro hmem
              have hrun : (')' : Char) ∈ s2.takeWhile (· ≠ ')') := by simpa using hmem
              have := List.mem_takeWhile_imp hrun
              simp at this
            · intro hmem
              have := List.mem_takeWhile_imp hmem
              simp at this
          · exact absurd h (by simp)
      · exact absurd h (by simp)
  · exact absurd h (by simp)

theorem findAltSimple_spec :
    ∀ {s a u r : Str}, findAltSimple s = some (a, u, r) →
      s = a ++ ']' :: '(' :: u ++ ')' :: r ∧ httpChars <+: u ∧ ')' ∉ u := by
  intro s
  induction s with
  | nil => intro a u r h; simp [findAltSimple] at h
  | cons c s' ih =>
    intro a u r h
    rw [findAltSimple] at h
    split at h
    case _ u' r' heq =>
      obtain ⟨ha, hu, hr⟩ : ([] : Str) = a ∧ u' = u ∧ r' = r := by simpa using h
      subst hu hr
      obtain ⟨hs, hpre, hmem⟩ := matchTailSimple_spec heq
      exact ⟨by rw [← ha, List.nil_append, hs], hpre, hmem⟩
    case _ heq =>
      split at h
      · rw [Option.map_eq_some'] at h
        obtain ⟨⟨a', u', r'⟩, hfa, hmap⟩ := h
        obtain ⟨ha, hu, hr⟩ : c :: a' = a ∧ u' = u ∧ r' = r := by simpa using hmap
        subst hu hr
        obtain ⟨hs, hpre, hmem⟩ := ih hfa
        exact ⟨by rw [← ha, hs]; simp, hpre, hmem⟩
      · exact absurd h (by simp)

theorem findAltWrapped_spec :
    ∀ {s a u o r : Str}, findAltWrapped s = some (a, u, o, r) →
      s = a ++ ']' :: '(' :: u ++ ')' :: ']' :: '(' :: o ++ ')' :: r ∧
        httpChars <+: u ∧ ')' ∉ u ∧ ')' ∉ o ∧ o ≠ [] := by
  intro s
  induction s with
  | nil => intro a u o r h; simp [findAltWrapped] at h
  | cons c s' ih =>
    intro a u o r h
    rw [findAltWrapped] at h
    split at h
    case _ u' o' r' heq =>
      obtain ⟨ha, hu, ho, hr⟩ : ([] : Str) = a ∧ u' = u ∧ o' = o ∧ r' = r := by simpa using h
      subst hu ho hr
      obtain ⟨hs, hpre, hmem, hmem2, hne⟩ := matchTailWrapped_spec heq
      exact ⟨by rw [← ha, List.nil_append, hs], hpre, hmem, hmem2, hne⟩
    case _ heq =>
      split at h
      · rw [Option.map_eq_some'] at h
        obtain ⟨⟨a', u', o', r'⟩, hfa, hmap⟩ := h
        obtain ⟨ha, hu, ho, hr⟩ : c :: a' = a ∧ u' = u ∧ o' = o ∧ r' = r := by simpa using hmap
        subst hu ho hr
        obtain ⟨hs, hpre, hmem, hmem2, hne⟩ := ih hfa
        exact ⟨by rw [← ha, hs]; simp, hpre, hmem, hmem2, hne⟩
      · exact absurd h (by simp)

theorem simpleMatchAt_spec {s alt u r : Str} (h : simpleMatchAt s = some (alt, u, r)) :
    s = '!' :: '[' :: alt ++ ']' :: '(' :: u ++ ')' :: r ∧ httpChars <+: u ∧ ')' ∉ u := by
  unfold simpleMatchAt at h
  split at h
  case _ rest2 =>
    obtain ⟨hs, hpre, hmem⟩ := findAltSimple_spec h
    exact ⟨by rw [hs]; simp, hpre, hmem⟩
  · exact absurd h (by simp)

theorem wrappedMatchAt_spec {s alt u o r : Str} (h : wrappedMatchAt s = some (alt, u, o, r)) :
    s = '[' :: '!' :: '[' :: alt ++ ']' :: '(' :: u ++ ')' :: ']' :: '(' :: o ++ ')' :: r ∧
      httpChars <+: u ∧ ')' ∉ u ∧ ')' ∉ o ∧ o ≠ [] := by
  unfold wrappedMatchAt at h
  split at h
  case _ rest2 =>
    obtain ⟨hs, hpre, hmem, hmem2, hne⟩ := findAltWrapped_spec h
    exact ⟨by rw [hs]; simp, hpre, hmem, hmem2, hne⟩
  · exact absurd h (by simp)

/-! ### The global-replace passes leave text without keyed matches unchanged

The URL captured by any match is an infix of the scanned text of the shape
`](` ++ url ++ `)`.  If every such candidate URL misses the rewrite map,
the pass emits the text byte-identically. -/
theorem replSimpleGo_eq_self (M : RewriteMap) (st : LinkStyle) :
    ∀ (fuel : Nat) (s : Str),
      (∀ u, httpChars <+: u → ')' ∉ u →
        (']' :: '(' :: u ++ [')'] : Str) <:+: s → M.lookup u = none) →
      replSimpleGo M st fuel s = s := by
  intro fuel
  induction fuel with
  | zero => intro s _; rfl
  | succ n ih =>
    intro s h
    cases s with
    | nil => rfl
    | cons c rest =>
      rw [replSimpleGo]
      cases hma : simpleMatchAt (c :: rest) with
      | some aur =>
        obtain ⟨alt, u, r⟩ := aur
        obtain ⟨hs, hpre, hmem⟩ := simpleMatchAt_spec hma
        have hinf : (']' :: '(' :: u ++ [')'] : Str) <:+: c :: rest :=
          ⟨'!' :: '[' :: alt, r, by rw [hs]; simp⟩
        have hlook : M.lookup u = none := h u hpre hmem hinf
        have hrs : r <:+: (c :: rest : Str) :=
          ⟨'!' :: '[' :: alt ++ ']' :: '(' :: u ++ [')'], [], by rw [hs]; simp⟩
        simp only [hlook]
        rw [ih r (fun u' hp hm hinf' => h u' hp hm (hinf'.trans hrs))]
        rw [hs]
        simp
      | none =>
        rw [ih rest (fun u' hp hm hinf' => h u' hp hm (hinf'.trans ⟨[c], [], by simp⟩))]

theorem replWrappedGo_eq_self (M : RewriteMap) (st : LinkStyle) :
    ∀ (fuel : Nat) (s : Str),
      (∀ u, httpChars <+: u → ')' ∉ u →
        (']' :: '(' :: u ++ [')'] : Str) <:+: s → M.lookup u = none) →
      replWrappedGo M st fuel s = s := by
  intro fuel
  induction fuel with
  | zero => intro s _; rfl
  | succ n ih =>
    intro s h
    cases s with
    | nil => rfl
    | cons c rest =>
      rw [replWrappedGo]
      cases hma : wrappedMatchAt (c :: rest) with
      | some auor =>
        obtain ⟨alt, u, o, r⟩ := auor
        obtain ⟨hs, hpre, hmem, hmem2, hne⟩ := wrappedMatchAt_spec hma
        have hinf : (']' :: '(' :: u ++ [')'] : Str) <:+: c :: rest :=
          ⟨'[' :: '!' :: '[' :: alt, ']' :: '(' :: o ++ ')' :: r, by rw [hs]; simp⟩
        have hlook : M.lookup u = none := h u hpre hmem hinf
        have hrs : r <:+: (c :: rest : Str) :=
          ⟨'[' :: '!' :: '[' :: alt ++ ']' :: '(' :: u ++ ')' :: ']' :: '(' :: o ++ [')'], [],
            by rw [hs]; simp⟩
        simp only [hlook]
        rw [ih r (fun u' hp hm hinf' => h u' hp hm (hinf'.trans hrs))]
        rw [hs]
        simp
      | none =>
        rw [ih rest (fun u' hp hm hinf' => h u' hp hm (hinf'.trans ⟨[c], [], by simp⟩))]

theorem lookup_some_mem {u p : Str} {M : RewriteMap} (h : M.lookup u = some p) :
    u ∈ M.map Prod.fst := by
  induction M with
  | nil => simp [List.lookup] at h
  | cons kv M' ih =>
    obtain ⟨k, v⟩ := kv
    rw [List.lookup] at h
    by_cases hk : u = k
    · simp [hk]
    · have : (u == k) = false := beq_false_of_ne hk
      rw [this] at h
      simp only [List.map_cons, List.mem_cons]
      exact Or.inr (ih h)

/-- If no candidate URL of the text is a key of the map, `replaceImageUrls`
leaves the text unchanged. -/
theorem replaceImageUrls_eq_self (M : RewriteMap) (st : LinkStyle) (s : Str)
    (h : ∀ u, httpChars <+: u → ')' ∉ u →
      (']' :: '(' :: u ++ [')'] : Str) <:+: s → M.lookup u = none) :
    replaceImageUrls M st s = s := by
  unfold replaceImageUrls replaceWrappedPass replaceSimplePass
  rw [replWrappedGo_eq_self M st s.length s h]
  exact replSimpleGo_eq_self M st s.length s h

/-- **C1, counterexample.** The rewrite engine is not idempotent for every
rewrite map: with the single-entry map `{"http://u" ↦ "P"}` and markdown
style, the text `![a](http://u)x](http://u)` rewrites once to
`![a](P)x](http://u)` (the stray `](http://u)` was consumed inside the lazy
alt of the first match), and rewriting again produces `![a](P)x](P)`. -/
theorem claim_C1_counterexample :
    replaceImageUrls [(str "http://u", str "P")] .markdown
        (str "![a](http://u)x](http://u)") =
      str "![a](P)x](http://u)" ∧
    replaceImageUrls [(str "http://u", str "P")] .markdown
        (replaceImageUrls [(str "http://u", str "P")] .markdown
          (str "![a](http://u)x](http://u)")) ≠
      replaceImageUrls [(str "http://u", str "P")] .markdown
        (str "![a](http://u)x](http://u)") := by
  constructor
  · decide
  · decide

/-- **C1, amended.**  `replaceImageUrls` with an empty rewrite map is the
identity on every text; and applying it twice with the same map equals
applying it once *provided* no raw-target key of the map occurs as a
substring of the once-rewritten text (which is the spec's own stated
rationale, but does not hold for every map and text). -/
theorem claim_C1_amended (M : RewriteMap) (st : LinkStyle) (t : Str) :
    (M = [] → replaceImageUrls M st t = t) ∧
    ((∀ k ∈ M.map Prod.fst, ¬ (k <:+: replaceImageUrls M st t)) →
      replaceImageUrls M st (replaceImageUrls M st t) = replaceImageUrls M st t) := by
  constructor
  · intro hM
    subst hM
    exact replaceImageUrls_eq_self [] st t (fun u _ _ _ => rfl)
  · intro hk
    apply replaceImageUrls_eq_self
    intro u hpre hmem hinf
    by_contra hlook
    obtain ⟨p, hp⟩ := Option.ne_none_iff_exists'.mp hlook
    refine hk u (lookup_some_mem hp) ?_
    exact List.IsInfix.trans ⟨[']', '('], [')'], by simp⟩ hinf

/-! ### C2: link-wrapped precedence -/
theorem takeWhile_app {p : Char → Bool} :
    ∀ (xs : Str) {y : Char} {ys : Str}, (∀ x ∈ xs, p x = true) → p y = false →
      List.takeWhile p (xs ++ y :: ys) = xs := by
  intro xs
  induction xs with
  | nil => intro y ys _ hy; simp [List.takeWhile, hy]
  | cons x xs' ih =>
    intro y ys hall hy
    have hx : p x = true := hall x (by simp)
    rw [List.cons_append, List.takeWhile_cons_of_pos hx,
      ih (fun z hz => hall z (by simp [hz])) hy]

theorem dropWhile_app {p : Char → Bool} :
    ∀ (xs : Str) {y : Char} {ys : Str}, (∀ x ∈ xs, p x = true) → p y = false →
      List.dropWhile p (xs ++ y :: ys) = y :: ys := by
  intro xs
  induction xs with
  | nil => intro y ys _ hy; simp [List.dropWhile, hy]
  | cons x xs' ih =>
    intro y ys hall hy
    have hx : p x = true := hall x (by simp)
    rw [List.cons_append, List.dropWhile_cons_of_pos hx]
    exact ih (fun z hz => hall z (by simp [hz])) hy

theorem notMemParen_decide {l : Str} (h : ')' ∉ l) :
    ∀ x ∈ l, (fun x => decide (x ≠ ')')) x = true := by
  intro x hx
  simp only [decide_eq_true_eq]
  intro hcontra
  exact h (hcontra ▸ hx)

theorem matchTailWrapped_comp {t1 u2 rest : Str}
    (ht1 : t1 ≠ []) (ht1p : ')' ∉ t1) (hu2ne : u2 ≠ []) (hu2p : ')' ∉ u2) :
    matchTailWrapped (']' :: '(' :: 'h' :: 't' :: 't' :: 'p' ::
        (t1 ++ ')' :: ']' :: '(' :: (u2 ++ ')' :: rest))) =
      some ('h' :: 't' :: 't' :: 'p' :: t1, u2, rest) := by
  have htw : List.takeWhile (fun x => decide (x ≠ ')'))
      (t1 ++ ')' :: ']' :: '(' :: (u2 ++ ')' :: rest)) = t1 :=
    takeWhile_app t1 (notMemParen_decide ht1p) (by simp)
  have hdw : List.dropWhile (fun x => decide (x ≠ ')'))
      (t1 ++ ')' :: ']' :: '(' :: (u2 ++ ')' :: rest)) = ')' :: ']' :: '(' :: (u2 ++ ')' :: rest) :=
    dropWhile_app t1 (notMemParen_decide ht1p) (by simp)
  have htw2 : List.takeWhile (fun x => decide (x ≠ ')')) (u2 ++ ')' :: rest) = u2 :=
    takeWhile_app u2 (notMemParen_decide hu2p) (by simp)
  have hdw2 : List.dropWhile (fun x => decide (x ≠ ')')) (u2 ++ ')' :: rest) = ')' :: rest :=
    dropWhile_app u2 (notMemParen_decide hu2p) (by simp)
  unfold matchTailWrapped
  simp only [htw, hdw, htw2, hdw2, if_neg ht1, if_neg hu2ne]

theorem matchTailWrapped_ne {c : Char} (hc : c ≠ ']') (s : Str) :
    matchTailWrapped (c :: s) = none := by
  unfold matchTailWrapped
  split
  case _ heq =>
    injection heq with h1 _
    exact absurd h1 hc
  · rfl

theorem findAltWrapped_comp :
    ∀ (a : Str) {t1 u2 rest : Str}, ']' ∉ a → (∀ c ∈ a, isDotChar c = true) →
      t1 ≠ [] → ')' ∉ t1 → u2 ≠ [] → ')' ∉ u2 →
      findAltWrapped (a ++ ']' :: '(' :: 'h' :: 't' :: 't' :: 'p' ::
          (t1 ++ ')' :: ']' :: '(' :: (u2 ++ ')' :: rest))) =
        some (a, 'h' :: 't' :: 't' :: 'p' :: t1, u2, rest) := by
  intro a
  induction a with
  | nil =>
    intro t1 u2 rest _ _ ht1 ht1p hu2ne hu2p
    rw [List.nil_append, findAltWrapped, matchTailWrapped_comp ht1 ht1p hu2ne hu2p]
  | cons c a' ih =>
    intro t1 u2 rest ha1 ha2 ht1 ht1p hu2ne hu2p
    have hc : c ≠ ']' := fun hcontra => ha1 (by simp [hcontra])
    have ha1' : ']' ∉ a' := fun hcontra => ha1 (by simp [hcontra])
    have ha2' : ∀ d ∈ a', isDotChar d = true := fun d hd => ha2 d (by simp [hd])
    have hcd : isDotChar c = true := ha2 c (by simp)
    rw [List.cons_append, findAltWrapped, matchTailWrapped_ne hc,
      ih ha1' ha2' ht1 ht1p hu2ne hu2p]
    simp [hcd]

theorem replWrappedGo_nil (M : RewriteMap) (st : LinkStyle) :
    ∀ fuel, replWrappedGo M st fuel [] = [] := by
  intro fuel
  cases fuel <;> rfl

theorem replaceWrappedPass_comp (M : RewriteMap) (st : LinkStyle) {a t1 u2 p : Str}
    (ha1 : ']' ∉ a) (ha2 : ∀ c ∈ a, isDotChar c = true)
    (ht1 : t1 ≠ []) (ht1p : ')' ∉ t1) (hu2ne : u2 ≠ []) (hu2p : ')' ∉ u2)
    (hp : M.lookup ('h' :: 't' :: 't' :: 'p' :: t1) = some p) :
    replaceWrappedPass M st
      ('[' :: '!' :: '[' :: (a ++ ']' :: '(' :: 'h' :: 't' :: 't' :: 'p' ::
        (t1 ++ ')' :: ']' :: '(' :: (u2 ++ [')'])))) = renderImageLink st p a := by
  unfold replaceWrappedPass
  rw [List.length_cons, replWrappedGo]
  have hw : wrappedMatchAt ('[' :: '!' :: '[' :: (a ++ ']' :: '(' :: 'h' :: 't' :: 't' :: 'p' ::
      (t1 ++ ')' :: ']' :: '(' :: (u2 ++ [')'])))) =
      some (a, 'h' :: 't' :: 't' :: 'p' :: t1, u2, []) := by
    rw [wrappedMatchAt]
    exact findAltWrapped_comp a ha1 ha2 ht1 ht1p hu2ne hu2p
  rw [hw]
  simp only [hp]
  rw [replWrappedGo_nil]
  simp

/-- Unique-separator analysis: when `c` does not occur in `a`, any other
decomposition of `a ++ c :: z` at a `c` either agrees with it or lies
strictly to the right. -/
theorem sep_cases {c : Char} :
    ∀ {x : Str} {a y z : Str}, c ∉ a → x ++ c :: y = a ++ c :: z →
      (x = a ∧ y = z) ∨ ∃ x2, x = a ++ c :: x2 ∧ x2 ++ c :: y = z := by
  intro x
  induction x with
  | nil =>
    intro a y z ha h
    cases a with
    | nil => simp at h; exact Or.inl ⟨rfl, h⟩
    | cons d a' =>
      rw [List.nil_append, List.cons_append] at h
      injection h with h1 _
      exact absurd (by simp [h1]) ha
  | cons e x' ih =>
    intro a y z ha h
    cases a with
    | nil =>
      rw [List.cons_append, List.nil_append] at h
      injection h with h1 h2
      exact Or.inr ⟨x', by simp [h1], h2⟩
    | cons d a' =>
      rw [List.cons_append, List.cons_append] at h
      injection h with h1 h2
      have ha' : c ∉ a' := fun hcontra => ha (by simp [hcontra])
      rcases ih ha' h2 with ⟨hx, hy⟩ | ⟨x2, hx, hy⟩
      · exact Or.inl ⟨by rw [h1, hx], hy⟩
      · exact Or.inr ⟨x2, by rw [List.cons_append, h1, hx], hy⟩

/-- The markdown rendering of a rewritten link admits no simple-pattern URL
infix, under the stated character-hygiene conditions. -/
theorem nomatch_markdown {a p u : Str} (ha : ']' ∉ a) (hp1 : ']' ∉ p) (hp2 : ')' ∉ p)
    (hp3 : ¬ httpChars <+: p) (hu : httpChars <+: u) (hup : ')' ∉ u) :
    ¬ ((']' :: '(' :: u ++ [')'] : Str) <:+:
        ('!' :: '[' :: (a ++ ']' :: '(' :: (p ++ [')'])) : Str)) := by
  rintro ⟨pre, post, heq⟩
  have hB : ']' ∉ ('!' :: '[' :: a : Str) := by
    simp only [List.mem_cons]
    rintro (h1 | h1 | h1) <;> first | exact absurd h1.symm (by decide) | exact ha h1
  have heq' : pre ++ ']' :: ('(' :: (u ++ ')' :: post)) =
      ('!' :: '[' :: a) ++ ']' :: ('(' :: (p ++ [')'])) := by
    simpa using heq
  rcases sep_cases hB heq' with ⟨_, hy⟩ | ⟨x2, _, hy⟩
  · injection hy with _ hy2
    rcases sep_cases hp2 hy2 with ⟨hx, _⟩ | ⟨x3, hx, _⟩
    · exact hp3 (hx ▸ hu)
    · exact hup (by rw [hx]; simp)
  · have : (']' : Char) ∈ ('(' :: (p ++ [')']) : Str) := by
      rw [← hy]
      simp
    simp only [List.mem_cons, List.mem_append] at this
    rcases this with h1 | h1 | h1
    · exact absurd h1 (by decide)
    · exact hp1 h1
    · simp at h1

/-- The bracket-embed rendering of a rewritten link admits no simple-pattern
URL infix. -/
theorem nomatch_obsidian {a p u : Str} (ha : ']' ∉ a) (hp1 : ']' ∉ p) :
    ¬ ((']' :: '(' :: u ++ [')'] : Str) <:+:
        ('!' :: '[' :: '[' :: (p ++ '|' :: a ++ [']', ']']) : Str)) := by
  rintro ⟨pre, post, heq⟩
  have hB : ']' ∉ ('!' :: '[' :: '[' :: (p ++ '|' :: a) : Str) := by
    simp only [List.mem_cons, List.mem_append]
    rintro (h1 | h1 | h1 | h1 | h1 | h1)
    · exact absurd h1.symm (by decide)
    · exact absurd h1.symm (by decide)
    · exact absurd h1.symm (by decide)
    · exact hp1 h1
    · exact absurd h1 (by decide)
    · exact ha h1
  have heq' : pre ++ ']' :: ('(' :: (u ++ ')' :: post)) =
      ('!' :: '[' :: '[' :: (p ++ '|' :: a)) ++ ']' :: [']'] := by
    simpa using heq
  rcases sep_cases hB heq' with ⟨_, hy⟩ | ⟨x2, _, hy⟩
  · injection hy with h1 _
    exact absurd h1 (by decide)
  · have := congrArg List.length hy
    simp only [List.length_append, List.length_cons, List.length_nil] at this
    omega

theorem wrappedComposite_eq (a t1 u2 : Str) :
    wrappedComposite a t1 u2 =
      str "[![" ++ a ++ str "](http" ++ t1 ++ str ")](" ++ u2 ++ str ")" := by
  simp [wrappedComposite, str]

/-- **C2.**  Rewriting the single composite `[![a](u1)](u2)` whose inner URL
`u1 = "http" ++ t1` is mapped to `p` yields a single non-wrapped link to `p`
carrying alt `a`: `![a](p)` in markdown style and `![[p|a]]` in
bracket-embed style.  `u2` does not survive into the output.  The
hypotheses state that the components are well formed for the engine's
patterns: the alt contains no `]` and no line terminators, the URLs are
nonempty and contain no `)`, and the new path is a local path (no `]`, no
`)`, does not start with `http`). -/
theorem claim_C2 (M : RewriteMap) (a t1 u2 p : Str)
    (ha1 : ']' ∉ a) (ha2 : ∀ c ∈ a, isDotChar c = true) (hane : a ≠ [])
    (ht1 : t1 ≠ []) (ht1p : ')' ∉ t1)
    (hu2ne : u2 ≠ []) (hu2p : ')' ∉ u2)
    (hp : M.lookup ('h' :: 't' :: 't' :: 'p' :: t1) = some p)
    (hp1 : ']' ∉ p) (hp2 : ')' ∉ p) (hp3 : ¬ httpChars <+: p) :
    replaceImageUrls M .markdown (wrappedComposite a t1 u2) =
      str "![" ++ a ++ str "](" ++ p ++ str ")" ∧
    replaceImageUrls M .obsidian (wrappedComposite a t1 u2) =
      str "![[" ++ p ++ str "|" ++ a ++ str "]]" := by
  constructor
  · show replaceSimplePass M .markdown
      (replaceWrappedPass M .markdown (wrappedComposite a t1 u2)) = _
    rw [show wrappedComposite a t1 u2 = '[' :: '!' :: '[' :: (a ++ ']' :: '(' :: 'h' ::
        't' :: 't' :: 'p' :: (t1 ++ ')' :: ']' :: '(' :: (u2 ++ [')']))) from rfl]
    rw [replaceWrappedPass_comp M .markdown ha1 ha2 ht1 ht1p hu2ne hu2p hp]
    have hrender : renderImageLink .markdown p a =
        '!' :: '[' :: (a ++ ']' :: '(' :: (p ++ [')'])) := by
      simp [renderImageLink, str]
    rw [hrender]
    unfold replaceSimplePass
    rw [replSimpleGo_eq_self M .markdown _ _
      (fun u hpre hmem hinf => absurd hinf (nomatch_markdown ha1 hp1 hp2 hp3 hpre hmem))]
    simp [str]
  · show replaceSimplePass M .obsidian
      (replaceWrappedPass M .obsidian (wrappedComposite a t1 u2)) = _
    rw [show wrappedComposite a t1 u2 = '[' :: '!' :: '[' :: (a ++ ']' :: '(' :: 'h' ::
        't' :: 't' :: 'p' :: (t1 ++ ')' :: ']' :: '(' :: (u2 ++ [')']))) from rfl]
    rw [replaceWrappedPass_comp M .obsidian ha1 ha2 ht1 ht1p hu2ne hu2p hp]
    have hrender : renderImageLink .obsidian p a =
        '!' :: '[' :: '[' :: (p ++ '|' :: a ++ [']', ']']) := by
      simp [renderImageLink, str, if_neg hane]
    rw [hrender]
    unfold replaceSimplePass
    rw [replSimpleGo_eq_self M .obsidian _ _
      (fun u _ _ hinf => absurd hinf (nomatch_obsidian ha1 hp1))]
    simp [str]

theorem claim_C2_witness :
    replaceImageUrls [(str "http://u1", str "attachments/x.png")] .markdown
        (wrappedComposite (str "a") (str "://u1") (str "http://u2")) =
      str "![a](attachments/x.png)" ∧
    replaceImageUrls [(str "http://u1", str "attachments/x.png")] .obsidian
        (wrappedComposite (str "a") (str "://u1") (str "http://u2")) =
      str "![[attachments/x.png|a]]" := by
  have h := claim_C2 [(str "http://u1", str "attachments/x.png")] (str "a") (str "://u1")
    (str "http://u2") (str "attachments/x.png") (by decide) (by decide) (by decide)
    (by decide) (by decide) (by decide) (by decide) (by decide) (by decide) (by decide)
    (by decide)
  constructor
  · rw [h.1]; decide
  · rw [h.2]; decide

theorem claim_C1_witness :
    replaceImageUrls [] .markdown (str "no links here") = str "no links here" ∧
    replaceImageUrls [(str "http://u", str "P")] .markdown
        (replaceImageUrls [(str "http://u", str "P")] .markdown (str "![x](http://u)")) =
      replaceImageUrls [(str "http://u", str "P")] .markdown (str "![x](http://u)") :=
  ⟨(claim_C1_amended [] .markdown (str "no links here")).1 rfl,
   (claim_C1_amended [(str "http://u", str "P")] .markdown (str "![x](http://u)")).2
     (by decide)⟩

example :
    extractImageUrls (str "[![](http://a/b.png)](http://a/b.png) and ![](http://c/d.png)") =
      [str "http://a/b.png", str "http://c/d.png"] := by decide

/-- **C6, counterexample.**  The extractor does *not* deduplicate URLs that
occur in more than one link-wrapped composite: the wrapped loop pushes
every match's URL unconditionally, so the same URL appears twice. -/
theorem claim_C6_counterexample :
    extractImageUrls (str "[![](http://a)](x)[![](http://a)](y)") =
      [str "http://a", str "http://a"] ∧
    ¬ (extractImageUrls (str "[![](http://a)](x)[![](http://a)](y)")).Nodup := by
  constructor
  · decide
  · decide

theorem extractSimpleGo_nodup :
    ∀ (fuel : Nat) (acc : List Str) (s : Str), acc.Nodup → (extractSimpleGo fuel acc s).Nodup := by
  intro fuel
  induction fuel with
  | zero => intro acc s h; exact h
  | succ n ih =>
    intro acc s h
    cases s with
    | nil => exact h
    | cons c rest =>
      rw [extractSimpleGo]
      cases hma : xSimpleAt (c :: rest) with
      | some ur =>
        obtain ⟨u, r⟩ := ur
        by_cases hmem : u ∈ acc
        · simp only [if_pos hmem]
          exact ih acc r h
        · simp only [if_neg hmem]
          refine ih (acc ++ [u]) r ?_
          rw [List.nodup_append]
          exact ⟨h, List.nodup_singleton u, by
            intro x hx hxu
            rw [List.mem_singleton] at hxu
            exact hmem (hxu ▸ hx)⟩
      | none => exact ih acc rest h

/-- **C6, amended.**  The simple-pattern pass deduplicates against
everything already collected, so the result has no duplicate raw target
whenever the link-wrapped matches are pairwise distinct; but distinct
wrapped composites sharing the same URL each contribute an occurrence. -/
theorem claim_C6_amended (content : Str)
    (h : (extractWrappedGo content.length content).Nodup) :
    (extractImageUrls content).Nodup :=
  extractSimpleGo_nodup content.length (extractWrappedGo content.length content) content h

theorem claim_C6_witness :
    (extractImageUrls (str "[![](http://a)](x) and ![](http://b)")).Nodup :=
  claim_C6_amended (str "[![](http://a)](x) and ![](http://b)") (by decide)

example :
    resolveImagePath [str "attachments/pic.png", str "notes/pic.png"]
      (str "attachments") (str "notes") (str "pic.png") =
      some (str "attachments/pic.png") := by decide

example :
    resolveImagePath [str "notes/a/img.png"] (str "attachments") (str "notes/a/b")
      (str "../img.png") = some (str "notes/a/img.png") := by decide

theorem slash_of_relative {p : Str} (h : (str "../" <:+: p) ∨ (str "./" <+: p)) :
    '/' ∈ p := by
  rcases h with h | h
  · exact h.subset (by decide)
  · exact h.subset (by decide)

/-- **C3.**  The resolver tries its rules in strict order with first
success winning: (1) a remote `http` prefix yields `none` with no local
resolution; (2) otherwise a verbatim store hit wins; (3) a bare filename
found in the (nonempty) default attachment directory resolves there, even
when a file of the same name exists elsewhere in the store; (4) when every
rule fails the result is `none` (and the function is total, so no
exception can escape). -/
theorem claim_C3 (vault : List Str) (attachmentDir currentDir imagePath : Str) :
    (str "http" <+: imagePath →
      resolveImagePath vault attachmentDir currentDir imagePath = none) ∧
    (¬ (str "http" <+: imagePath) → imagePath ∈ vault →
      resolveImagePath vault attachmentDir currentDir imagePath = some imagePath) ∧
    (¬ (str "http" <+: imagePath) → imagePath ∉ vault → '/' ∉ imagePath →
      attachmentDir ≠ [] → (attachmentDir ++ '/' :: imagePath) ∈ vault →
      resolveImagePath vault attachmentDir currentDir imagePath =
        some (attachmentDir ++ '/' :: imagePath)) ∧
    (¬ (str "http" <+: imagePath) → imagePath ∉ vault →
      ((str "../" <:+: imagePath) ∨ (str "./" <+: imagePath) →
        resolveRelativePath currentDir imagePath ∉ vault) →
      ('/' ∉ imagePath →
        (attachmentDir ≠ [] → (attachmentDir ++ '/' :: imagePath) ∉ vault) ∧
        (currentDir ≠ [] → (currentDir ++ '/' :: imagePath) ∉ vault) ∧
        (∀ q ∈ vault, baseName q ≠ imagePath)) →
      resolveImagePath vault attachmentDir currentDir imagePath = none) := by
  refine ⟨?_, ?_, ?_, ?_⟩
  · intro h
    simp [resolveImagePath, h]
  · intro h1 h2
    simp [resolveImagePath, firstSome, lookupVault, h1, h2]
  · intro h1 h2 h3 h4 h5
    have hrel : ¬ ((str "../" <:+: imagePath) ∨ (str "./" <+: imagePath)) :=
      fun hcontra => h3 (slash_of_relative hcontra)
    simp [resolveImagePath, firstSome, lookupVault, tryRelativeRule, tryDirRule,
      h1, h2, h3, h4, h5, hrel]
  · intro h1 h2 h3 h4
    by_cases hs : '/' ∈ imagePath
    · by_cases hrel : (str "../" <:+: imagePath) ∨ (str "./" <+: imagePath)
      · simp [resolveImagePath, firstSome, lookupVault, tryRelativeRule,
          h1, h2, hs, hrel, h3 hrel]
      · simp [resolveImagePath, firstSome, lookupVault, tryRelativeRule, h1, h2, hs, hrel]
    · obtain ⟨ha, hc, hq⟩ := h4 hs
      have hrel : ¬ ((str "../" <:+: imagePath) ∨ (str "./" <+: imagePath)) :=
        fun hcontra => hs (slash_of_relative hcontra)
      have hscan : tryScanRule vault imagePath = none := by
        rw [tryScanRule, List.find?_eq_none]
        intro q hqmem
        simpa using hq q hqmem
      by_cases hadir : attachmentDir = []
      · by_cases hcdir : currentDir = []
        · simp [resolveImagePath, firstSome, lookupVault, tryRelativeRule, tryDirRule,
            h1, h2, hs, hrel, hadir, hcdir, hscan]
        · simp [resolveImagePath, firstSome, lookupVault, tryRelativeRule, tryDirRule,
            h1, h2, hs, hrel, hadir, hcdir, hc hcdir, hscan]
      · by_cases hcdir : currentDir = []
        · simp [resolveImagePath, firstSome, lookupVault, tryRelativeRule, tryDirRule,
            h1, h2, hs, hrel, hadir, hcdir, ha hadir, hscan]
        · simp [resolveImagePath, firstSome, lookupVault, tryRelativeRule, tryDirRule,
            h1, h2, hs, hrel, hadir, hcdir, ha hadir, hc hcdir, hscan]

theorem claim_C3_witness :
    resolveImagePath [str "attachments/pic.png", str "other/pic.png"]
        (str "attachments") (str "docs") (str "http://x/pic.png") = none ∧
    resolveImagePath [str "attachments/pic.png", str "other/pic.png"]
        (str "attachments") (str "docs") (str "attachments/pic.png") =
      some (str "attachments/pic.png") ∧
    resolveImagePath [str "attachments/pic.png", str "other/pic.png"]
        (str "attachments") (str "docs") (str "pic.png") =
      some (str "attachments" ++ '/' :: str "pic.png") ∧
    resolveImagePath [str "attachments/pic.png", str "other/pic.png"]
        (str "attachments") (str "docs") (str "missing.png") = none := by
  refine ⟨?_, ?_, ?_, ?_⟩
  · exact (claim_C3 _ _ _ _).1 (by decide)
  · exact (claim_C3 _ _ _ _).2.1 (by decide) (by decide)
  · exact (claim_C3 _ _ _ _).2.2.1 (by decide) (by decide) (by decide) (by decide) (by decide)
  · exact (claim_C3 _ _ _ _).2.2.2 (by decide) (by decide) (by decide) (by decide)

theorem unusedFilter_eq_filter (usedSet : List Str) :
    ∀ l : List TFile, unusedFilter usedSet l = l.filter (fun f => decide (f.path ∉ usedSet)) := by
  intro l
  induction l with
  | nil => rfl
  | cons f rest ih =>
    rw [unusedFilter, List.filter_cons]
    by_cases h : f.path ∈ usedSet
    · simp [h, ih]
    · simp [h, ih]

theorem mem_getAttachmentsInVault_spec {f : TFile} :
    ∀ {allFiles : List TFile} {excl : Option Str} {kind : AttachKind},
      f ∈ getAttachmentsInVault allFiles excl kind →
      toLowerStr f.extension ∉ excludedExtArr excl ∧
        toLowerStr f.extension ∉ docExtensions := by
  intro allFiles
  induction allFiles with
  | nil => intro excl kind h; simp [getAttachmentsInVault] at h
  | cons g rest ih =>
    intro excl kind h
    simp only [getAttachmentsInVault] at h
    by_cases hskip : toLowerStr g.extension ∈ excludedExtArr excl ∨
        toLowerStr g.extension ∈ docExtensions
    · rw [if_pos hskip] at h
      exact ih h
    · rw [if_neg hskip] at h
      by_cases himg : toLowerStr g.extension ∈ imageExtensions
      · rw [if_pos himg] at h
        rcases List.mem_cons.mp h with hfg | h'
        · subst hfg
          exact ⟨fun hc => hskip (Or.inl hc), fun hc => hskip (Or.inr hc)⟩
        · exact ih h'
      · rw [if_neg himg] at h
        by_cases hkind : kind = .all
        · rw [if_pos hkind] at h
          rcases List.mem_cons.mp h with hfg | h'
          · subst hfg
            exact ⟨fun hc => hskip (Or.inl hc), fun hc => hskip (Or.inr hc)⟩
          · exact ih h'
        · rw [if_neg hkind] at h
          exact ih h

/-- **C4.**  The unused-attachment query is exactly the order-preserving
filter of the enumerated attachments by absence from the reachability set,
and nothing it returns has a document extension (`md`/`canvas`/`base`) or
an extension from the configured excluded list. -/
theorem claim_C4 (allFiles : List TFile) (excl : Option Str) (kind : AttachKind)
    (usedSet : List Str) :
    getUnusedAttachments allFiles excl kind usedSet =
      (getAttachmentsInVault allFiles excl kind).filter
        (fun f => decide (f.path ∉ usedSet)) ∧
    ∀ f ∈ getUnusedAttachments allFiles excl kind usedSet,
      f.path ∉ usedSet ∧
      toLowerStr f.extension ∉ docExtensions ∧
      toLowerStr f.extension ∉ excludedExtArr excl := by
  refine ⟨unusedFilter_eq_filter usedSet _, ?_⟩
  intro f hf
  rw [getUnusedAttachments, unusedFilter_eq_filter] at hf
  rw [List.mem_filter] at hf
  obtain ⟨hmem, hpath⟩ := hf
  obtain ⟨hexcl, hdoc⟩ := mem_getAttachmentsInVault_spec hmem
  exact ⟨by simpa using hpath, hdoc, hexcl⟩

theorem claim_C4_witness :
    getUnusedAttachments
        [⟨str "a.png", str "png"⟩, ⟨str "b.md", str "md"⟩, ⟨str "c.png", str "png"⟩]
        (some (str "tmp")) .image [str "a.png"] =
      [⟨str "c.png", str "png"⟩] ∧
    (⟨str "c.png", str "png"⟩ : TFile).path ∉ [str "a.png"] := by
  have h := claim_C4
    [⟨str "a.png", str "png"⟩, ⟨str "b.md", str "md"⟩, ⟨str "c.png", str "png"⟩]
    (some (str "tmp")) .image [str "a.png"]
  refine ⟨?_, (h.2 ⟨str "c.png", str "png"⟩ (by decide)).1⟩
  rw [h.1]
  decide

theorem getAttachmentsInVault_sublist (allFiles : List TFile) (excl : Option Str) :
    List.Sublist (getAttachmentsInVault allFiles excl .image)
      (getAttachmentsInVault allFiles excl .all) := by
  induction allFiles with
  | nil => exact List.Sublist.refl _
  | cons f rest ih =>
    rw [getAttachmentsInVault, getAttachmentsInVault]
    split
    · exact ih
    · split
      · exact ih.cons₂ f
      · simp only [reduceCtorEq, if_false, if_pos rfl]
        exact ih.cons f

/-- **C10.**  The query is monotone in its kind: every attachment returned
for kind `image` is also returned for kind `all` (same store, settings and
reachability set). -/
theorem claim_C10 (allFiles : List TFile) (excl : Option Str) (usedSet : List Str)
    (f : TFile) (h : f ∈ getUnusedAttachments allFiles excl .image usedSet) :
    f ∈ getUnusedAttachments allFiles excl .all usedSet := by
  rw [getUnusedAttachments, unusedFilter_eq_filter] at h ⊢
  exact ((getAttachmentsInVault_sublist allFiles excl).filter _).subset h

theorem claim_C10_witness :
    (⟨str "a.png", str "png"⟩ : TFile) ∈
      getUnusedAttachments [⟨str "a.png", str "png"⟩, ⟨str "b.bin", str "bin"⟩]
        none .all [] :=
  claim_C10 [⟨str "a.png", str "png"⟩, ⟨str "b.bin", str "bin"⟩] none []
    ⟨str "a.png", str "png"⟩ (by decide)

example : bannerCapture (str "![[img.png]]") = some (str "img.png") := by decide

example : bannerCapture (str "plain.png") = none := by decide

example : pathIsAnImage (str "plain.PNG") = true := by decide

/-- **C7.**  The two front-matter recognition rules are mutually exclusive
with bracket-embed winning: a value matching `bannerRegex` contributes
exactly what the link-shorthand resolver returns (one path or nothing) and
never the raw value rule; the bare-image-path rule is only consulted when
`bannerRegex` does not match; every value contributes at most one entry. -/
theorem claim_C7 (resolveShorthand : Str → Option Str) (v : Str) :
    (∀ cap, bannerCapture v = some cap →
      processFrontmatterValue resolveShorthand v =
        (match resolveShorthand cap with
         | some fpath => [fpath]
         | none => []) ∧
      ∀ x ∈ processFrontmatterValue resolveShorthand v, resolveShorthand cap = some x) ∧
    (bannerCapture v = none →
      processFrontmatterValue resolveShorthand v =
        if pathIsAnImage v then [v] else []) ∧
    (processFrontmatterValue resolveShorthand v).length ≤ 1 := by
  refine ⟨?_, ?_, ?_⟩
  · intro cap hcap
    constructor
    · rw [processFrontmatterValue, hcap]
    · intro x hx
      rw [processFrontmatterValue, hcap] at hx
      cases hres : resolveShorthand cap with
      | some fpath =>
        simp only [hres, List.mem_singleton] at hx
        rw [hx]
      | none => simp only [hres] at hx; simp at hx
  · intro hcap
    rw [processFrontmatterValue, hcap]
  · rw [processFrontmatterValue]
    cases bannerCapture v with
    | some cap =>
      cases hres : resolveShorthand cap <;> simp [hres]
    | none =>
      by_cases h : pathIsAnImage v <;> simp [h]

theorem claim_C7_witness :
    bannerCapture (str "![[img.png]]") = some (str "img.png") ∧
    pathIsAnImage (str "![[img.png]]") = true ∧
    processFrontmatterValue
        (fun cap => if cap = str "img.png" then some (str "attachments/img.png") else none)
        (str "![[img.png]]") = [str "attachments/img.png"] := by
  refine ⟨by decide, by decide, ?_⟩
  have h := ((claim_C7
    (fun cap => if cap = str "img.png" then some (str "attachments/img.png") else none)
    (str "![[img.png]]")).1 (str "img.png") (by decide)).1
  rw [h]
  decide

theorem processVaultFile_badCanvas (O : VaultOracles) (s : List Str) {bad : VaultFile}
    (hext : bad.extension = str "canvas") (hparse : O.parseCanvas bad.content = none) :
    processVaultFile O s bad = s := by
  rw [processVaultFile, hext]
  rw [if_neg (by decide), if_pos rfl]
  split
  · rfl
  · rw [hparse]

/-- **C8.**  A canvas file whose JSON fails to parse contributes nothing to
the reachability set — the whole file is skipped, every other file is still
processed, and the unused-attachment query over the resulting set is
unchanged; all functions are total, so no exception escapes. -/
theorem claim_C8 (O : VaultOracles) (resolvedLinks : List (Str × List Str))
    (files1 files2 : List VaultFile) (bad : VaultFile)
    (hext : bad.extension = str "canvas")
    (hparse : O.parseCanvas bad.content = none) :
    getAttachmentPathSetForVault O resolvedLinks (files1 ++ bad :: files2) =
      getAttachmentPathSetForVault O resolvedLinks (files1 ++ files2) ∧
    ∀ (allFiles : List TFile) (excl : Option Str) (kind : AttachKind),
      getUnusedAttachments allFiles excl kind
          (getAttachmentPathSetForVault O resolvedLinks (files1 ++ bad :: files2)) =
        getUnusedAttachments allFiles excl kind
          (getAttachmentPathSetForVault O resolvedLinks (files1 ++ files2)) := by
  have hmain : getAttachmentPathSetForVault O resolvedLinks (files1 ++ bad :: files2) =
      getAttachmentPathSetForVault O resolvedLinks (files1 ++ files2) := by
    rw [getAttachmentPathSetForVault, getAttachmentPathSetForVault,
      List.foldl_append, List.foldl_append, List.foldl_cons,
      processVaultFile_badCanvas O _ hext hparse]
  exact ⟨hmain, fun allFiles excl kind => by rw [hmain]⟩

theorem claim_C8_witness :
    getAttachmentPathSetForVault
        ⟨fun _ _ => none, fun _ _ => [], fun _ => none⟩ []
        ([⟨str "a.md", str "md", str "", some [str "x.png"]⟩] ++
          ⟨str "bad.canvas", str "canvas", str "not json", none⟩ ::
            [⟨str "b.md", str "md", str "", some [str "y.png"]⟩]) =
      getAttachmentPathSetForVault
        ⟨fun _ _ => none, fun _ _ => [], fun _ => none⟩ []
        ([⟨str "a.md", str "md", str "", some [str "x.png"]⟩] ++
          [⟨str "b.md", str "md", str "", some [str "y.png"]⟩]) :=
  (claim_C8 ⟨fun _ _ => none, fun _ _ => [], fun _ => none⟩ []
    [⟨str "a.md", str "md", str "", some [str "x.png"]⟩]
    [⟨str "b.md", str "md", str "", some [str "y.png"]⟩]
    ⟨str "bad.canvas", str "canvas", str "not json", none⟩ rfl rfl).1

/-- **C5, counterexample.**  In `processNetworkImages` the document is
rewritten after *each* successful download, not exactly once per batch: a
two-URL batch where both downloads succeed performs two set-content
operations, and the first one happens before the second download has
completed. -/
theorem claim_C5_counterexample :
    processNetworkImagesTrace (fun _ => some (str "p")) 0 []
        [str "http://a", str "http://b"] =
      [BatchEvt.item 0 true, BatchEvt.setContent,
        BatchEvt.item 1 true, BatchEvt.setContent] ∧
    (processNetworkImagesTrace (fun _ => some (str "p")) 0 []
        [str "http://a", str "http://b"]).count BatchEvt.setContent ≠ 1 := by
  constructor
  · decide
  · decide

theorem processRefererLoop_items (outcome : Str → Option Str) :
    ∀ (urls : List Str) (i : Nat),
      ∀ e ∈ (processRefererLoop outcome i urls).1, e ≠ BatchEvt.setContent := by
  intro urls
  induction urls with
  | nil => intro i e he; simp [processRefererLoop] at he
  | cons u rest ih =>
    intro i e he
    rw [processRefererLoop] at he
    cases houtcome : outcome u with
    | some p =>
      rw [houtcome] at he
      rcases List.mem_cons.mp he with h1 | h1
      · subst h1; simp
      · exact ih (i + 1) e h1
    | none =>
      rw [houtcome] at he
      rcases List.mem_cons.mp he with h1 | h1
      · subst h1; simp
      · exact ih (i + 1) e h1

theorem processNetworkImagesTrace_count (outcome : Str → Option Str) :
    ∀ (urls : List Str) (i : Nat) (m : List (Str × Str)),
      (processNetworkImagesTrace outcome i m urls).count BatchEvt.setContent =
        (urls.filter (fun u => (outcome u).isSome)).length := by
  intro urls
  induction urls with
  | nil => intro i m; rfl
  | cons u rest ih =>
    intro i m
    rw [processNetworkImagesTrace]
    cases houtcome : outcome u with
    | some p =>
      have hne : m ++ [(u, p)] ≠ [] := by simp
      simp [if_neg hne, List.filter_cons, houtcome, List.count_append, List.count_cons,
        ih (i + 1) (m ++ [(u, p)]), beq_iff_eq]
    | none =>
      simp [List.filter_cons, houtcome, List.count_cons, ih (i + 1) m, beq_iff_eq]

/-- **C5, amended.**  In `processFileWithReferer` the claim holds: the
batch performs exactly one set-content, as the final event, after all item
completions.  In `processNetworkImages` the document is instead set once
per *successful* download (cumulative map), so a batch performs as many
set-content operations as it has successes — more than once when two
downloads succeed, and zero times when none does. -/
theorem claim_C5_amended (outcome : Str → Option Str) (urls : List Str) :
    (∃ items, processFileWithRefererTrace outcome urls = items ++ [BatchEvt.setContent] ∧
      ∀ e ∈ items, e ≠ BatchEvt.setContent) ∧
    (processFileWithRefererTrace outcome urls).count BatchEvt.setContent = 1 ∧
    (processNetworkImagesTrace outcome 0 [] urls).count BatchEvt.setContent =
      (urls.filter (fun u => (outcome u).isSome)).length := by
  refine ⟨⟨(processRefererLoop outcome 0 urls).1, rfl,
    processRefererLoop_items outcome urls 0⟩, ?_, processNetworkImagesTrace_count outcome urls 0 []⟩
  rw [processFileWithRefererTrace, List.count_append]
  have hz : ((processRefererLoop outcome 0 urls).1).count BatchEvt.setContent = 0 := by
    rw [List.count_eq_zero]
    intro hmem
    exact processRefererLoop_items outcome urls 0 BatchEvt.setContent hmem rfl
  rw [hz]
  rfl

theorem claim_C5_witness :
    (processFileWithRefererTrace (fun _ => some (str "p")) [str "http://a"]).count
        BatchEvt.setContent = 1 :=
  (claim_C5_amended (fun _ => some (str "p")) [str "http://a"]).2.1

example : extractAllImageLinks (str "![[old_x9z2q.png]]") = [str "![[old_x9z2q.png]]"] := by
  decide

example : extractImagePathFromLink (str "![[old_x9z2q.png]]") = some (str "old_x9z2q.png") := by
  decide

/-- **C9.**  The disambiguator of a stem ending in `_` plus five `[a-z0-9]`
characters is reused, never regenerated: `extractDisamb` returns exactly
those five characters and the derived filename is
`{newDocumentBaseName}_{sameDisambiguator}.{ext}`; concretely, renaming
`old.md` to `new.md` over body `![[old_x9z2q.png]]` with the image at
`old_x9z2q.png` renames the attachment to `new_x9z2q.png` and rewrites the
body to `![[new_x9z2q.png]]`. -/
theorem claim_C9 :
    (∀ (p d newBase ext freshStr : Str), d.length = 5 →
      (∀ c ∈ d, isLowerAlnum c = true) →
      extractDisamb (p ++ '_' :: d) = some d ∧
      deriveImageNewName newBase (p ++ '_' :: d) ext freshStr =
        newBase ++ '_' :: d ++ '.' :: ext) ∧
    handleImageRenameAfterFileRename
        ⟨[], [], true, fun _ _ => true, fun _ => str "zzzzz"⟩
        [str "old_x9z2q.png"] (str "![[old_x9z2q.png]]") (str "new") =
      ([(str "old_x9z2q.png", str "new_x9z2q.png")], str "![[new_x9z2q.png]]") := by
  constructor
  · intro p d newBase ext freshStr h5 hall
    match d, h5 with
    | [a, b, c, e, f], _ =>
      have hrev : (p ++ '_' :: [a, b, c, e, f]).reverse =
          f :: e :: c :: b :: a :: '_' :: p.reverse := by simp
      have hdis : extractDisamb (p ++ '_' :: [a, b, c, e, f]) = some [a, b, c, e, f] := by
        rw [extractDisamb, hrev]
        simp [hall a (by simp), hall b (by simp), hall c (by simp),
          hall e (by simp), hall f (by simp)]
      exact ⟨hdis, by rw [deriveImageNewName, hdis]; rfl⟩
  · decide

theorem claim_C9_witness :
    extractDisamb (str "old" ++ '_' :: str "x9z2q") = some (str "x9z2q") ∧
    deriveImageNewName (str "new") (str "old" ++ '_' :: str "x9z2q") (str "png")
        (str "zzzzz") =
      str "new" ++ '_' :: str "x9z2q" ++ '.' :: str "png" :=
  claim_C9.1 (str "old") (str "x9z2q") (str "new") (str "png") (str "zzzzz")
    (by decide) (by decide)


end ImgProc



